import Mathlib

/-
Verification of the prosemirror-history core (src/history.js) against its
specification. The history log is shallowly embedded: the external
collaborator contracts (steps, position maps, selections, documents; see
spec section 6) are abstracted as type parameters together with a record
`HOps` of the operations the history code invokes on them. Persistent
rope-sequences are modelled as lists (append / slice / get / windowed
forEach translate to ++ / take-drop / get? / folds over windows).

Type parameters: P = position map, S = step, J = serialised selection
(JSON marker), L = live selection, D = document.
-/

set_option autoImplicit false
set_option maxRecDepth 8000

namespace HistSpec

variable {P S J L D : Type}

/-- Log entry: a position map, an optional inverted step, an optional
serialised selection marker, and an optional mirror offset
(src/history.js, class Item). -/
structure Item (P S J : Type) where
  map : P
  step : Option S
  selection : Option J
  mirrorOffset : Option Nat
  deriving DecidableEq, Repr

/-- The prosemirror-transform Mapping: a list of maps, a flat list of
mirror pairs, and a slice window [fromI, toI). Mutation in the source
(appendMap) becomes functional update. -/
structure Mapping (P : Type) where
  maps : List P
  mirror : List (Nat × Nat)
  fromI : Nat
  toI : Nat
  deriving DecidableEq, Repr

/-- Mapping.slice(from) with the `to` argument defaulted to maps.length. -/
def Mapping.slice1 (m : Mapping P) (f : Nat) : Mapping P :=
  ⟨m.maps, m.mirror, f, m.maps.length⟩

/-- Mapping.slice(from, to). -/
def Mapping.slice2 (m : Mapping P) (f t : Nat) : Mapping P :=
  ⟨m.maps, m.mirror, f, t⟩

/-- Mapping.appendMap(map, mirrors): push the map, reset the window end to
the new length, and when a mirror index is given record the pair
(new index, mirror index). -/
def Mapping.appendMap (m : Mapping P) (mp : P) (mi : Option Nat) : Mapping P :=
  ⟨m.maps ++ [mp],
   m.mirror ++ (match mi with | some k => [(m.maps.length, k)] | none => []),
   m.fromI, m.maps.length + 1⟩

/-- Symmetric lookup in the flat mirror list, first match wins
(prosemirror-transform Mapping.getMirror). -/
def mirrorLookup : List (Nat × Nat) → Nat → Option Nat
  | [], _ => none
  | (a, b) :: rest, n =>
    if a = n then some b else if b = n then some a else mirrorLookup rest n

/-- Mapping.getMirror(n). -/
def Mapping.getMirror (m : Mapping P) (n : Nat) : Option Nat :=
  mirrorLookup m.mirror n

/-- A Transform as the history sees it: parallel lists of steps and their
pre-step documents, plus the composed mapping (spec section 6). -/
structure Transform (P S D : Type) where
  steps : List S
  docs : List D
  mapping : Mapping P
  deriving DecidableEq, Repr

/-- The mutable transform built by popEvent (state.tr): current document,
applied steps, their pre-step documents, and the accumulated maps. -/
structure TrState (P S D : Type) where
  doc : D
  steps : List S
  docs : List D
  maps : List P
  deriving DecidableEq, Repr

/-- Operations the history invokes on the external collaborators
(spec section 6): step algebra, position maps, selection marshalling. -/
structure HOps (P S J L D : Type) where
  invertMap : P → P
  stepInvert : S → D → S
  stepMap : S → Mapping P → Option S
  stepMerge : S → S → Option S
  getMap : S → P
  applyStep : D → S → Option D
  mapSelection : J → Mapping P → J
  mapRanges : P → List (Nat × Nat × Nat × Nat)
  mapPos : P → Nat → Int → Nat
  selToJSON : L → J
  selFromJSON : D → Option J → L

/-- Transform.maybeStep: on success push the step, its pre-document and its
map and advance the document; on failure leave the transform unchanged.
The Bool reports whether the step applied (JS: result.doc is set). -/
def maybeStep (ops : HOps P S J L D) (tr : TrState P S D) (s : S) :
    TrState P S D × Bool :=
  match ops.applyStep tr.doc s with
  | some d1 => (⟨d1, tr.steps ++ [s], tr.docs ++ [tr.doc], tr.maps ++ [ops.getMap s]⟩, true)
  | none => (tr, false)

/-- A branch of the history: a sequence of items and an event counter
(src/history.js, class Branch). -/
structure Branch (P S J : Type) where
  items : List (Item P S J)
  eventCount : Nat
  deriving DecidableEq, Repr

/-- Branch.empty. -/
def Branch.empty : Branch P S J := ⟨[], 0⟩

/-- Item.merge(other): defined only when both items carry steps and `other`
carries no selection; asks the step algebra to merge other.step into
this.step; on success the new item's map is the inverse of the merged
step's map and the selection is inherited from `this`
(src/history.js lines 228-233). -/
def Item.merge (ops : HOps P S J L D) (a b : Item P S J) : Option (Item P S J) :=
  match a.step, b.step, b.selection with
  | some s, some t, none =>
    (ops.stepMerge t s).map (fun c => ⟨ops.invertMap (ops.getMap c), some c, a.selection, none⟩)
  | _, _, _ => none

/-- Branch.remapping's window walk: collect the maps of the items in the
window and register a mirror pair for every item whose mirror partner
also lies inside the window (src/history.js lines 109-119). The index
arithmetic is done in Int because the source compares a possibly
negative mirror position against the window start. -/
def remapWindow : List (Nat × Item P S J) → Nat → List P → List (Nat × Nat) → Mapping P
  | [], _, maps, mirrors => ⟨maps, mirrors, 0, maps.length⟩
  | (i, item) :: rest, f, maps, mirrors =>
    let mirrors1 :=
      match item.mirrorOffset with
      | some o =>
        if (i : Int) - (o : Int) ≥ (f : Int) then
          mirrors ++ [(maps.length - o, maps.length)]
        else mirrors
      | none => mirrors
    remapWindow rest f (maps ++ [item.map]) mirrors1

/-- Branch.remapping(from, to) over an item list. -/
def remappingOf (items : List (Item P S J)) (f t : Nat) : Mapping P :=
  remapWindow ((items.enum.drop f).take (t - f)) f [] []

/-- Branch.remapping(from, to) (src/history.js lines 109-119). -/
def Branch.remapping (b : Branch P S J) (f t : Nat) : Mapping P :=
  remappingOf b.items f t

/-- The initial backward scan of popEvent (src/history.js lines 36-40):
starting at the length, keep decrementing while the item below lacks a
selection. The JS loop has no lower bound; indexing below 0 yields
undefined and a TypeError, which this model renders as `none`. -/
def findEndGo (items : List (Item P S J)) : Nat → Option Nat
  | 0 => none
  | e + 1 =>
    match items.get? e with
    | some it => if it.selection.isSome then some e else findEndGo items e
    | none => findEndGo items e

/-- Index of the most recent selection-bearing item, or `none` when the
scan runs past the start of the sequence. -/
def findEnd (items : List (Item P S J)) : Option Nat :=
  findEndGo items items.length

/-- Result of Branch.popEvent: the truncated branch (undefined in JS when
the walk never meets a selection, hence Option), the reconstructed
transform and the selection marker to restore. -/
structure PopResult (P S J D : Type) where
  remaining : Option (Branch P S J)
  transform : TrState P S D
  selection : Option J
  deriving DecidableEq, Repr

/-- The forward walk of popEvent over the reversed item window
(src/history.js lines 51-81), with the mutable locals (remap, mapFrom,
transform, addAfter, addBefore) threaded as arguments. `allItems` and
`e` are used to build remappings and the remaining branch; `ec` is the
branch's eventCount. -/
def popLoop (ops : HOps P S J L D) (allItems : List (Item P S J)) (e ec : Nat) :
    List (Nat × Item P S J) → Option (Mapping P) → Nat → TrState P S D →
    List (Item P S J) → List (Item P S J) → PopResult P S J D
  | [], _, _, tr, _, _ => ⟨none, tr, none⟩
  | (i, item) :: rest, romap, mapFrom, tr, addAfter, addBefore =>
    match item.step with
    | none =>
      -- map-only item: create the remapping lazily, decrement the cursor
      -- and record the item for reinsertion
      match romap with
      | none =>
        let r := remappingOf allItems e (i + 1)
        popLoop ops allItems e ec rest (some r) (r.maps.length - 1) tr addAfter (addBefore ++ [item])
      | some r =>
        popLoop ops allItems e ec rest (some r) (mapFrom - 1) tr addAfter (addBefore ++ [item])
    | some st =>
      match romap with
      | some r =>
        let addBefore1 := addBefore ++ [⟨item.map, none, none, none⟩]
        let st1O := ops.stepMap st (r.slice1 mapFrom)
        let trApplied :=
          match st1O with
          | some s1 => maybeStep ops tr s1
          | none => (tr, false)
        let tr1 := trApplied.1
        let mapO : Option P := if trApplied.2 then tr1.maps.getLast? else none
        let addAfter1 :=
          match mapO with
          | some mp => addAfter ++ [⟨mp, none, none, some (addAfter.length + addBefore1.length)⟩]
          | none => addAfter
        let mapFrom1 := mapFrom - 1
        let r1 := match mapO with | some mp => r.appendMap mp (some mapFrom1) | none => r
        match item.selection with
        | some sel =>
          ⟨some ⟨allItems.take e ++ (addBefore1.reverse ++ addAfter1), ec - 1⟩, tr1,
           some (ops.mapSelection sel (r1.slice1 mapFrom1))⟩
        | none => popLoop ops allItems e ec rest (some r1) mapFrom1 tr1 addAfter1 addBefore1
      | none =>
        let tr1 := (maybeStep ops tr st).1
        match item.selection with
        | some sel =>
          ⟨some ⟨allItems.take e ++ (addBefore.reverse ++ addAfter), ec - 1⟩, tr1, some sel⟩
        | none => popLoop ops allItems e ec rest none mapFrom tr1 addAfter addBefore

/-- Branch.popEvent(state, preserveItems) (src/history.js lines 33-84).
Returns `.ok none` for the JS null, `.ok (some r)` for a result, and
`.error ()` when the unbounded backward scan runs past the start of the
item sequence (a TypeError in JS). -/
def Branch.popEvent (ops : HOps P S J L D) (b : Branch P S J) (doc0 : D)
    (preserveItems : Bool) : Except Unit (Option (PopResult P S J D)) :=
  if b.eventCount = 0 then .ok none
  else
    match findEnd b.items with
    | none => .error ()
    | some e =>
      let start :=
        if preserveItems then
          let r := remappingOf b.items e b.items.length
          (some r, r.maps.length)
        else ((none : Option (Mapping P)), 0)
      .ok (some (popLoop ops b.items e b.eventCount b.items.enum.reverse
        start.1 start.2 ⟨doc0, [], [], []⟩ [] []))

/-- Observable trace of repeatedly popping a branch: each element is the
reconstructed document together with the restored selection marker; the
document is threaded forward as the next starting document. A `none`
element records the backward scan running past the start. -/
def popTrace (ops : HOps P S J L D) (preserveItems : Bool) :
    Nat → D → Branch P S J → List (Option (D × Option J))
  | 0, _, _ => []
  | n + 1, doc0, b =>
    match b.popEvent ops doc0 preserveItems with
    | .error _ => [none]
    | .ok none => []
    | .ok (some r) =>
      some (r.transform.doc, r.selection) ::
        (match r.remaining with
         | some rem => popTrace ops preserveItems n r.transform.doc rem
         | none => [])

/-- Used to schedule history compression (src/history.js line 22). -/
def max_empty_items : Nat := 500

/-- DEPTH_OVERFLOW (src/history.js line 249). -/
def DEPTH_OVERFLOW : Int := 20

/-- Zip three parallel lists; the source indexes steps, docs and maps by
the same loop counter (host contract: the lists are parallel). -/
def zip3 {A B C : Type} : List A → List B → List C → List (A × B × C)
  | a :: as, b :: bs, c :: cs => (a, b, c) :: zip3 as bs cs
  | _, _, _ => []

/-- The step loop of Branch.addTransform (src/history.js lines 92-103):
invert each step, build an item carrying the (first-iteration) selection,
try to merge it into the previous item, and thread the merge bookkeeping
(pop of newItems on a non-first merge, shrink of oldItems on a first
merge, lastItem update unless preserveItems). Returns the final
(newItems, oldItems). -/
def addTransformLoop (ops : HOps P S J L D) (pi : Bool) :
    List (S × D × P) → List (Item P S J) → List (Item P S J) →
    Option (Item P S J) → Option J → Bool → List (Item P S J) × List (Item P S J)
  | [], newItems, oldItems, _, _, _ => (newItems, oldItems)
  | (st, d, mp) :: rest, newItems, oldItems, lastItem, sel, first =>
    let item0 : Item P S J := ⟨mp, some (ops.stepInvert st d), sel, none⟩
    let merged := match lastItem with
      | some li => Item.merge ops li item0
      | none => none
    match merged with
    | some m =>
      let newItems1 := if first then newItems ++ [m] else newItems.dropLast ++ [m]
      let oldItems1 := if first then oldItems.dropLast else oldItems
      addTransformLoop ops pi rest newItems1 oldItems1 (if pi then lastItem else some m) none false
    | none =>
      addTransformLoop ops pi rest (newItems ++ [item0]) oldItems
        (if pi then lastItem else some item0) none false

/-- The forward scan of cutOffEvents (src/history.js lines 209-218):
decrement n at each selection-bearing item and stop when it reaches 0,
returning that index. `none` models the JS cutPoint staying undefined. -/
def cutSearch : List (Item P S J) → Nat → Nat → Option Nat
  | [], _, _ => none
  | it :: rest, n, i =>
    if it.selection.isSome then
      if n = 1 then some i else cutSearch rest (n - 1) (i + 1)
    else cutSearch rest n (i + 1)

/-- cutOffEvents(items, n): slice from the found cut point; when the scan
never hits 0 the JS slice(undefined) returns the whole sequence. -/
def cutOffEvents (items : List (Item P S J)) (n : Nat) : List (Item P S J) :=
  match cutSearch items n 0 with
  | some cut => items.drop cut
  | none => items

/-- History plugin configuration (spec section 6). -/
structure HistOptions where
  depth : Int
  preserveItems : Bool
  newGroupDelay : Int
  deriving DecidableEq, Repr

/-- Branch.addTransform(transform, selection, histOptions)
(src/history.js lines 88-107). Note that the returned eventCount is
computed up front and is never adjusted when cutOffEvents discards
events. -/
def Branch.addTransform (ops : HOps P S J L D) (b : Branch P S J)
    (t : Transform P S D) (selection : Option J) (ho : HistOptions) : Branch P S J :=
  let eventCount := b.eventCount + (if selection.isSome then 1 else 0)
  let lastItem := if ho.preserveItems then none else b.items.getLast?
  let p := addTransformLoop ops ho.preserveItems
    (zip3 t.steps t.docs t.mapping.maps) [] b.items lastItem selection true
  let overflow : Int := (b.eventCount : Int) - ho.depth
  let oldItems1 := if DEPTH_OVERFLOW < overflow then cutOffEvents p.2 overflow.toNat else p.2
  ⟨oldItems1 ++ p.1, eventCount⟩

/-- Branch.addMaps(array) (src/history.js lines 121-124): a no-op when the
eventCount is 0, otherwise append one step-less item per map. -/
def Branch.addMaps (b : Branch P S J) (maps : List P) : Branch P S J :=
  if b.eventCount = 0 then b
  else ⟨b.items ++ maps.map (fun m => ⟨m, none, none, none⟩), b.eventCount⟩

/-- Branch.emptyItemCount() (src/history.js lines 168-172). -/
def Branch.emptyItemCount (b : Branch P S J) : Nat :=
  b.items.countP (fun it => it.step.isNone)

/-- The reverse walk of Branch.compress (src/history.js lines 183-202),
with the mutable locals (remap, mapFrom, items, events) threaded as
arguments. Accumulates in pop order; the caller reverses. -/
def compressLoop (ops : HOps P S J L D) (upto : Nat) :
    List (Nat × Item P S J) → Mapping P → Nat → List (Item P S J) → Nat →
    List (Item P S J) × Nat
  | [], _, _, acc, events => (acc, events)
  | (i, item) :: rest, remap, mapFrom, acc, events =>
    if upto ≤ i then compressLoop ops upto rest remap mapFrom (acc ++ [item]) events
    else
      match item.step with
      | some st =>
        match ops.stepMap st (remap.slice1 mapFrom) with
        | none => compressLoop ops upto rest remap (mapFrom - 1) acc events
        | some st1 =>
          let mp := ops.getMap st1
          let mapFrom1 := mapFrom - 1
          let remap1 := remap.appendMap mp (some mapFrom1)
          let selection := item.selection.map (fun s => ops.mapSelection s (remap1.slice1 mapFrom1))
          let events1 := events + (if selection.isSome then 1 else 0)
          let newItem : Item P S J := ⟨ops.invertMap mp, some st1, selection, none⟩
          let acc1 :=
            match acc.getLast? with
            | some lastIt =>
              match Item.merge ops lastIt newItem with
              | some merged => acc.dropLast ++ [merged]
              | none => acc ++ [newItem]
            | none => acc ++ [newItem]
          compressLoop ops upto rest remap1 mapFrom1 acc1 events1
      | none => compressLoop ops upto rest remap (mapFrom - 1) acc events

/-- Branch.compress(upto) (src/history.js lines 180-204): squeeze out the
map-only items below `upto`, remapping the surviving steps, and rebuild
the event counter from the surviving selections. -/
def Branch.compress (ops : HOps P S J L D) (b : Branch P S J) (upto : Nat) : Branch P S J :=
  let remap := remappingOf b.items 0 upto
  let p := compressLoop ops upto b.items.enum.reverse remap remap.maps.length [] 0
  ⟨p.1.reverse, p.2⟩

/-- The item walk of Branch.rebased (src/history.js lines 144-156): items
whose position has no mirror in the rebased mapping are dropped; step
items are rebuilt from the rebased step, map items from the rebased map.
Returns (rebasedItems, newUntil). -/
def rebasedLoop [Inhabited P] [Inhabited S] [Inhabited D] (ops : HOps P S J L D)
    (rt : Transform P S D) :
    List (Item P S J) → Nat → Nat → List (Item P S J) → List (Item P S J) × Nat
  | [], _, newUntil, acc => (acc, newUntil)
  | item :: rest, iReb, newUntil, acc =>
    match rt.mapping.getMirror iReb with
    | none => rebasedLoop ops rt rest (iReb + 1) newUntil acc
    | some pos =>
      let newUntil1 := min newUntil pos
      let mp := rt.mapping.maps.getD pos default
      match item.step with
      | some _ =>
        let st := ops.stepInvert (rt.steps.getD pos default) (rt.docs.getD pos default)
        let sel := item.selection.map (fun s => ops.mapSelection s (rt.mapping.slice2 iReb pos))
        rebasedLoop ops rt rest (iReb + 1) newUntil1 (acc ++ [⟨mp, some st, sel, none⟩])
      | none => rebasedLoop ops rt rest (iReb + 1) newUntil1 (acc ++ [⟨mp, none, none, none⟩])

/-- Branch.rebased before the compression check (src/history.js lines
132-162): drop the trailing rebasedCount items, rebuild the ones that
have mirrors, insert map items for the pure-remote prefix, and keep the
old eventCount (the source's FIXME). Also returns rebasedItems.length,
which the compression call below needs. -/
def Branch.rebasedCore [Inhabited P] [Inhabited S] [Inhabited D] (ops : HOps P S J L D)
    (b : Branch P S J) (rt : Transform P S D) (rebasedCount : Nat) :
    Branch P S J × Nat :=
  let startI : Int := (b.items.length : Int) - (rebasedCount : Int)
  let startPos : Nat := if startI < 0 then (-startI).toNat else 0
  let start : Nat := if startI < 0 then 0 else startI.toNat
  let p := rebasedLoop ops rt (b.items.drop start) startPos rt.steps.length []
  let newMaps := (List.range' rebasedCount (p.2 - rebasedCount)).map
    (fun i => (⟨rt.mapping.maps.getD i default, none, none, none⟩ : Item P S J))
  (⟨b.items.take start ++ newMaps ++ p.1, b.eventCount⟩, p.1.length)

/-- Branch.rebased(rebasedTransform, rebasedCount) (src/history.js lines
131-166): unchanged when eventCount is 0; otherwise rebuild the tail and
compress below the freshly rebased items when more than max_empty_items
step-less items have accumulated. -/
def Branch.rebased [Inhabited P] [Inhabited S] [Inhabited D] (ops : HOps P S J L D)
    (b : Branch P S J) (rt : Transform P S D) (rebasedCount : Nat) : Branch P S J :=
  if b.eventCount = 0 then b
  else
    let pr := b.rebasedCore ops rt rebasedCount
    if max_empty_items < pr.1.emptyItemCount then
      pr.1.compress ops (b.items.length - pr.2)
    else pr.1

/-- The history plugin state (src/history.js lines 239-246). prevTime is
an Option because the source stores action.time verbatim, which may be
undefined. -/
structure HistoryState (P S J : Type) where
  done : Branch P S J
  undone : Branch P S J
  prevMap : Option P
  prevTime : Option Int
  deriving DecidableEq, Repr

/-- A dispatched transform action (spec section 6): the transform, an
optional timestamp, the addToHistory flag (absent or explicit), the
rebased count (0 when absent, i.e. falsy) and an optional pre-baked
historyState. -/
structure TrAction (P S J D : Type) where
  transform : Transform P S D
  time : Option Int
  addToHistory : Option Bool
  rebasedN : Nat
  historyState : Option (HistoryState P S J)

/-- JS comparison `prevTime < x` where prevTime may be undefined
(undefined < x is false). -/
def jsLtO (p : Option Int) (x : Int) : Bool :=
  match p with
  | some v => decide (v < x)
  | none => false

/-- The pull-back walk of isAdjacentToLastStep over the done items from
the top (src/history.js lines 283-293): transform the range through the
inverted maps of trailing map-only items until a step item is met, then
test overlap against prevMap's touched ranges. -/
def adjWalk (ops : HOps P S J L D) (pm : P) :
    List (Item P S J) → Nat → Nat → Bool
  | [], _, _ => false
  | it :: rest, s, e =>
    match it.step with
    | some _ =>
      (ops.mapRanges pm).any (fun q => decide (s ≤ q.2.2.2) && decide (q.2.2.1 ≤ e))
    | none =>
      adjWalk ops pm rest (ops.mapPos (ops.invertMap it.map) s (-1))
        (ops.mapPos (ops.invertMap it.map) e 1)

/-- isAdjacentToLastStep(transform, prevMap, done) (src/history.js lines
278-296): false when prevMap is null; trivially true when the transform
has no first map; otherwise some touched range of the first map, pulled
back through the trailing map-only items of done, overlaps a touched
range of prevMap. -/
def isAdjacentToLastStep (ops : HOps P S J L D) (t : Transform P S D)
    (prevMap : Option P) (done : Branch P S J) : Bool :=
  match prevMap with
  | none => false
  | some pm =>
    match t.mapping.maps.head? with
    | none => true
    | some firstMap =>
      (ops.mapRanges firstMap).any (fun r => adjWalk ops pm done.items.reverse r.1 r.2.1)

/-- recordTransform(history, selection, action, options) (src/history.js
lines 253-276). -/
def recordTransform (ops : HOps P S J L D) [Inhabited P] [Inhabited S] [Inhabited D]
    (history : HistoryState P S J) (selection : L) (action : TrAction P S J D)
    (options : HistOptions) : HistoryState P S J :=
  let transform := action.transform
  match action.historyState with
  | some hs => hs
  | none =>
    if transform.steps.length = 0 then history
    else if action.addToHistory ≠ some false then
      let newGroup :=
        jsLtO history.prevTime (action.time.getD 0 - options.newGroupDelay) ||
          !(isAdjacentToLastStep ops transform history.prevMap history.done)
      ⟨history.done.addTransform ops transform
         (if newGroup then some (ops.selToJSON selection) else none) options,
       Branch.empty,
       transform.mapping.maps.get? (transform.steps.length - 1),
       action.time⟩
    else if action.rebasedN ≠ 0 then
      ⟨history.done.rebased ops transform action.rebasedN,
       history.undone.rebased ops transform action.rebasedN,
       (match history.prevMap with
        | none => none
        | some _ => transform.mapping.maps.get? (transform.steps.length - 1)),
       history.prevTime⟩
    else
      ⟨history.done.addMaps transform.mapping.maps,
       history.undone.addMaps transform.mapping.maps,
       history.prevMap, history.prevTime⟩

/-- Actions the plugin's applyAction consumes (src/history.js lines
348-354). -/
inductive HAction (P S J D : Type) where
  | transform (a : TrAction P S J D)
  | historyClose
  | other

/-- The plugin's initial state (src/history.js lines 345-347). -/
def historyInit : HistoryState P S J := ⟨Branch.empty, Branch.empty, none, some 0⟩

/-- The plugin's applyAction (src/history.js lines 348-354): transform
actions go through recordTransform, historyClose resets the grouping
metadata, everything else is ignored. -/
def applyAction (ops : HOps P S J L D) [Inhabited P] [Inhabited S] [Inhabited D]
    (config : HistOptions) (hist : HistoryState P S J) (stateSel : L)
    (action : HAction P S J D) : HistoryState P S J :=
  match action with
  | .transform a => recordTransform ops hist stateSel a config
  | .historyClose => ⟨hist.done, hist.undone, none, some 0⟩
  | .other => hist

/-- The slice of the editor state the history reads: the document, the
current selection and the plugin state (absent when the plugin is not
installed). -/
structure EditorState (P S J L D : Type) where
  doc : D
  selection : L
  hist : Option (HistoryState P S J)

/-- The action emitted by histAction (src/history.js line 312): the
reconstructed transform, the restored selection and the new history
state it installs. -/
structure Emitted (P S J L D : Type) where
  tr : TrState P S D
  selection : L
  historyState : HistoryState P S J
  deriving DecidableEq, Repr

/-- histAction(history, state, onAction, redo) (src/history.js lines
302-313): pop from one branch, restore the selection against the popped
transform's document, add the popped transform to the other branch, and
emit. A null pop emits nothing. A pop whose walk never met a selection
would leave remaining undefined in JS; that is unreachable for branches
whose selections sit on step items, and is modelled with Branch.empty. -/
def histAction (ops : HOps P S J L D) [Inhabited P] [Inhabited S] [Inhabited D]
    (histOptions : HistOptions) (history : HistoryState P S J)
    (state : EditorState P S J L D) (redo : Bool) :
    Except Unit (Option (Emitted P S J L D)) := do
  let popO ← (if redo then history.undone else history.done).popEvent ops state.doc
    histOptions.preserveItems
  match popO with
  | none => pure none
  | some pop =>
    let selection := ops.selFromJSON pop.transform.doc pop.selection
    let tToAdd : Transform P S D :=
      ⟨pop.transform.steps, pop.transform.docs,
       ⟨pop.transform.maps, [], 0, pop.transform.maps.length⟩⟩
    let added := (if redo then history.done else history.undone).addTransform ops tToAdd
      (some (ops.selToJSON state.selection)) histOptions
    let remaining := pop.remaining.getD Branch.empty
    let newHist : HistoryState P S J :=
      if redo then ⟨added, remaining, none, some 0⟩ else ⟨remaining, added, none, some 0⟩
    pure (some ⟨pop.transform, selection, newHist⟩)

/-- undo(state, onAction) (src/history.js lines 364-369): false when the
plugin state is absent or the done branch is empty; otherwise true,
dispatching what histAction emits. -/
def undo (ops : HOps P S J L D) [Inhabited P] [Inhabited S] [Inhabited D]
    (histOptions : HistOptions) (state : EditorState P S J L D) :
    Except Unit (Bool × Option (Emitted P S J L D)) :=
  match state.hist with
  | none => .ok (false, none)
  | some hist =>
    if hist.done.eventCount = 0 then .ok (false, none)
    else do
      let e ← histAction ops histOptions hist state false
      pure (true, e)

/-- redo(state, onAction) (src/history.js lines 374-379). -/
def redo (ops : HOps P S J L D) [Inhabited P] [Inhabited S] [Inhabited D]
    (histOptions : HistOptions) (state : EditorState P S J L D) :
    Except Unit (Bool × Option (Emitted P S J L D)) :=
  match state.hist with
  | none => .ok (false, none)
  | some hist =>
    if hist.undone.eventCount = 0 then .ok (false, none)
    else do
      let e ← histAction ops histOptions hist state true
      pure (true, e)

/-- undoDepth(state) (src/history.js lines 384-387). -/
def undoDepth (state : EditorState P S J L D) : Nat :=
  match state.hist with
  | none => 0
  | some hist => hist.done.eventCount

/-- redoDepth(state) (src/history.js lines 392-395). -/
def redoDepth (state : EditorState P S J L D) : Nat :=
  match state.hist with
  | none => 0
  | some hist => hist.undone.eventCount

/-!
Concrete instantiations over Nat used by witnesses and counterexamples.
The collaborator contracts of spec section 6 leave the step algebra
abstract; these instances satisfy them.
-/

/-- A trivial step algebra: steps and maps are Nats, applying step s adds
s to the document, every step survives mapping unchanged, selections map
to themselves, merging always fails. -/
def opsId : HOps Nat Nat Nat Nat Nat :=
  ⟨fun p => p, fun s _ => s, fun s _ => some s, fun _ _ => none, fun s => s,
   fun d s => some (d + s), fun j _ => j, fun _ => [], fun _ p _ => p,
   fun l => l, fun _ j => j.getD 0⟩

/-- Like opsId, except that mapping a step through a non-empty remapping
window destroys it (the contract allows step.map to return null). -/
def ops0 : HOps Nat Nat Nat Nat Nat :=
  ⟨fun p => p, fun s _ => s, fun s m => if m.fromI < m.toI then none else some s,
   fun _ _ => none, fun s => s,
   fun d s => some (d + s), fun j _ => j, fun _ => [], fun _ p _ => p,
   fun l => l, fun _ j => j.getD 0⟩

/-- Like opsId, except that merging steps succeeds and adds them. -/
def opsM : HOps Nat Nat Nat Nat Nat :=
  ⟨fun p => p, fun s _ => s, fun s _ => some s, fun a b => some (a + b), fun s => s,
   fun d s => some (d + s), fun j _ => j, fun _ => [], fun _ p _ => p,
   fun l => l, fun _ j => j.getD 0⟩

/-- A one-step transform: step k+1, pre-document 0, map k. -/
def T1 (k : Nat) : Transform Nat Nat Nat := ⟨[k + 1], [0], ⟨[k], [], 0, 1⟩⟩

/-- History options with depth 1 (the smallest value the config
normalisation `config.depth || 100` lets through). -/
def ho1 : HistOptions := ⟨1, false, 500⟩

/-- Branch reached by 23 addTransform calls on the empty branch, each a
single-step transform opening a fresh event, under depth 1. -/
def b23 : Branch Nat Nat Nat :=
  (List.range 23).foldl (fun b k => b.addTransform opsId (T1 k) (some k) ho1) Branch.empty

/-- HistoryState reached from the initial state by 22 tracked transform
actions at times 1000, 2000, ..., each starting a new group by the time
rule, under depth 1. -/
def hist22 : HistoryState Nat Nat Nat :=
  (List.range 22).foldl
    (fun h k => applyAction opsId ho1 h 0
      (HAction.transform ⟨T1 k, some (1000 * (k + 1)), none, 0, none⟩))
    historyInit

/-- A one-event branch: a single step item carrying a selection. -/
def b3 : Branch Nat Nat Nat := ⟨[⟨0, some 1, some 10, none⟩], 1⟩

/-- The result popEvent produces on b3 under opsId. -/
def pr3 : PopResult Nat Nat Nat Nat := ⟨some ⟨[], 0⟩, ⟨1, [1], [0], [1]⟩, some 10⟩

/-- A two-event branch of step items; under ops0 compression destroys the
older step. -/
def cB : Branch Nat Nat Nat := ⟨[⟨0, some 1, some 10, none⟩, ⟨0, some 2, some 20, none⟩], 2⟩

/-- A step-less map item. -/
def mapIt : Item Nat Nat Nat := ⟨0, none, none, none⟩

/-- A branch with one event and 501 map-only items, enough to trip the
max_empty_items threshold inside rebased. -/
def bR : Branch Nat Nat Nat := ⟨⟨0, some 1, some 5, none⟩ :: List.replicate 501 mapIt, 1⟩

/-- A rebase transform with no steps whose mapping carries one map and the
mirror pair (0, 0). -/
def rtR : Transform Nat Nat Nat := ⟨[], [], ⟨[7], [(0, 0)], 0, 1⟩⟩

/-- A branch with items but eventCount 0, as popEvent's remaining branch
can produce. -/
def b7 : Branch Nat Nat Nat := ⟨[mapIt], 0⟩

/-- A tracked action at time 1000. -/
def act4 : TrAction Nat Nat Nat Nat := ⟨T1 0, some 1000, none, 0, none⟩

/-- Items for exercising Item.merge. -/
def ia : Item Nat Nat Nat := ⟨9, some 3, some 7, none⟩

/-- Second merge operand: carries a step and no selection. -/
def ib : Item Nat Nat Nat := ⟨8, some 4, none, none⟩

/-- An editor state without the history plugin state. -/
def stNoHist : EditorState Nat Nat Nat Nat Nat := ⟨0, 0, none⟩

/-- The projection of an item popEvent's observables depend on when the
branch holds only step items: the step and the selection marker. -/
def projSS (it : Item P S J) : Option S × Option J := (it.step, it.selection)

/-- The item compress emits for a step item when the remapping acts
trivially: same step and selection, map replaced by the inverse of the
step's map. -/
def stepOnlyImage (ops : HOps P S J L D) (it : Item P S J) : Item P S J :=
  match it.step with
  | some s => ⟨ops.invertMap (ops.getMap s), some s, it.selection, none⟩
  | none => it

/-- Two branches that popEvent cannot distinguish: same eventCount, same
steps and selections item by item, and (for the first) only step items,
so the walk never builds a remapping. -/
def BranchRel (b1 b2 : Branch P S J) : Prop :=
  b1.eventCount = b2.eventCount ∧
  b1.items.map projSS = b2.items.map projSS ∧
  (∀ it ∈ b1.items, it.step.isSome)

/-- Helper: the branch built by rebasedCore keeps the eventCount verbatim
(the source's FIXME). -/
theorem rebasedCore_eventCount [Inhabited P] [Inhabited S] [Inhabited D]
    (ops : HOps P S J L D) (b : Branch P S J) (rt : Transform P S D) (n : Nat) :
    (b.rebasedCore ops rt n).1.eventCount = b.eventCount := rfl

/-- C7 (counterexample): a branch with a (map-only) item but eventCount 0
is returned unchanged by addMaps, against the claim that a non-empty
branch gets one MapItem appended per map. -/
theorem addMaps_nonempty_counterexample :
    b7.items ≠ [] ∧ Branch.addMaps b7 [3] = b7 ∧
      (Branch.addMaps b7 [3]).items ≠ b7.items ++ [(⟨3, none, none, none⟩ : Item Nat Nat Nat)] := by
  decide

/-- C7 (amended): addMaps is the identity exactly when eventCount is 0
(not when the item list is empty); otherwise it appends one step-less
item per map, in order, keeping eventCount. -/
theorem addMaps_spec (b : Branch P S J) (maps : List P) :
    (b.eventCount = 0 → b.addMaps maps = b) ∧
    (b.eventCount ≠ 0 →
      (b.addMaps maps).items = b.items ++ maps.map (fun m => ⟨m, none, none, none⟩) ∧
      (b.addMaps maps).eventCount = b.eventCount) := by
  constructor
  · intro h; simp [Branch.addMaps, h]
  · intro h; simp [Branch.addMaps, h]

/-- C7 (witness): addMaps_spec applied to a branch with one event. -/
theorem addMaps_spec_witness :
    Branch.addMaps b3 [4] = b3 ∨
      ((Branch.addMaps b3 [4]).items = b3.items ++ [(⟨4, none, none, none⟩ : Item Nat Nat Nat)] ∧
        (Branch.addMaps b3 [4]).eventCount = b3.eventCount) := by
  refine Or.inr ?_
  have h := (addMaps_spec b3 [4]).2 (by decide)
  simpa using h

/-- C8: Item.merge produces a result only when both items carry steps and
the newer one carries no selection; in that case the result is exactly
the image of the step algebra's merge, with the inverted map of the
merged step and the older item's selection. -/
theorem merge_spec (ops : HOps P S J L D) (a b : Item P S J) :
    ((Item.merge ops a b).isSome → a.step.isSome ∧ b.step.isSome ∧ b.selection = none) ∧
    (∀ s t, a.step = some s → b.step = some t → b.selection = none →
      Item.merge ops a b = (ops.stepMerge t s).map
        (fun c => ⟨ops.invertMap (ops.getMap c), some c, a.selection, none⟩)) := by
  constructor
  · intro h
    cases ha : a.step <;> cases hb : b.step <;> cases hbs : b.selection <;>
      simp [Item.merge, ha, hb, hbs] at h ⊢
  · intro s t hs ht hsel
    simp [Item.merge, hs, ht, hsel]

/-- C8 (witness): merge_spec evaluated on concrete items under a step
algebra whose merge adds the steps. -/
theorem merge_spec_witness :
    Item.merge opsM ia ib = some ⟨7, some 7, some 7, none⟩ := by
  have h := (merge_spec opsM ia ib).2 3 4 rfl rfl rfl
  exact h.trans (by decide)

/-- C10: when the plugin state is absent, undo and redo return false and
emit nothing, and both depth queries return 0. -/
theorem missing_plugin_state_noop (ops : HOps P S J L D) [Inhabited P] [Inhabited S]
    [Inhabited D] (ho : HistOptions) (state : EditorState P S J L D)
    (h : state.hist = none) :
    undo ops ho state = .ok (false, none) ∧ redo ops ho state = .ok (false, none) ∧
      undoDepth state = 0 ∧ redoDepth state = 0 := by
  refine ⟨?_, ?_, ?_, ?_⟩ <;> simp [undo, redo, undoDepth, redoDepth, h]

/-- C10 (witness): missing_plugin_state_noop on a concrete plugin-less
editor state. -/
theorem missing_plugin_state_noop_witness :
    undo opsId ho1 stNoHist = .ok (false, none) ∧ redo opsId ho1 stNoHist = .ok (false, none) ∧
      undoDepth stNoHist = 0 ∧ redoDepth stNoHist = 0 :=
  missing_plugin_state_noop opsId ho1 stNoHist rfl

/-- C6 (counterexample): a rebase on a branch with one event and 501
map-only items trips the max_empty_items threshold; the compression it
triggers recomputes eventCount and here drops the event (its step no
longer maps), so rebased does not preserve eventCount. -/
theorem rebased_eventCount_counterexample :
    (Branch.rebased ops0 bR rtR 1).eventCount = 0 ∧ bR.eventCount = 1 := by
  decide

/-- C6 (amended): rebased preserves eventCount whenever the rebuilt branch
does not trip the compression threshold, and a branch with eventCount 0
(in particular the empty branch) is returned unchanged. -/
theorem rebased_eventCount_preserved [Inhabited P] [Inhabited S] [Inhabited D]
    (ops : HOps P S J L D) (b : Branch P S J) (rt : Transform P S D) (n : Nat) :
    (b.eventCount = 0 → b.rebased ops rt n = b) ∧
    ((b.rebasedCore ops rt n).1.emptyItemCount ≤ max_empty_items →
      (b.rebased ops rt n).eventCount = b.eventCount) := by
  constructor
  · intro h; simp [Branch.rebased, h]
  · intro h
    by_cases h0 : b.eventCount = 0
    · simp [Branch.rebased, h0]
    · rw [Branch.rebased, if_neg h0, if_neg (Nat.not_lt.mpr h)]
      exact rebasedCore_eventCount ops b rt n

/-- C6 (witness): rebased_eventCount_preserved on the empty branch and on
a small one-event branch that stays below the threshold. -/
theorem rebased_eventCount_preserved_witness :
    Branch.rebased opsId (Branch.empty : Branch Nat Nat Nat) rtR 1 = Branch.empty ∧
      (Branch.rebased opsId b3 rtR 0).eventCount = b3.eventCount :=
  ⟨(rebased_eventCount_preserved opsId Branch.empty rtR 1).1 rfl,
   (rebased_eventCount_preserved opsId b3 rtR 0).2 (by decide)⟩

/-- C1 (code evaluation): after 23 single-step addTransform calls under
depth 1, the branch holds 3 selection-bearing items (cutOffEvents evicted
20 whole events at the 23rd call) while eventCount reports 23: the claim
eventCount = number of selection-bearing items fails on the code. -/
theorem addTransform_eventCount_mismatch :
    b23.eventCount = 23 ∧ b23.items.countP (fun it => it.selection.isSome) = 3 := by
  decide

/-- C2 (code evaluation): after 22 tracked actions under depth 1, the done
branch's eventCount is 22, strictly above depth + DEPTH_OVERFLOW = 21:
addTransform never subtracts evicted events from eventCount, so the
claimed bound eventCount ≤ depth + 20 fails on the code. -/
theorem depth_bound_violated :
    hist22.done.eventCount = 22 ∧
      ho1.depth + DEPTH_OVERFLOW < (hist22.done.eventCount : Int) := by
  decide

/-- Helper: a successful backward scan lands on a selection-bearing item. -/
theorem findEndGo_mem_sel (items : List (Item P S J)) :
    ∀ e k, findEndGo items e = some k →
      ∃ it, items.get? k = some it ∧ it.selection.isSome := by
  intro e
  induction e with
  | zero => intro k h; simp [findEndGo] at h
  | succ e ih =>
    intro k h
    cases hg : items.get? e with
    | none => simp only [findEndGo, hg] at h; exact ih k h
    | some it =>
      simp only [findEndGo, hg] at h
      by_cases hs : it.selection.isSome
      · rw [if_pos hs] at h; cases h; exact ⟨it, hg, hs⟩
      · rw [if_neg hs] at h; exact ih k h

/-- Helper: the backward scan succeeds when a selection-bearing item sits
below the start index. -/
theorem findEndGo_isSome (items : List (Item P S J)) :
    ∀ e, (∃ j, j < e ∧ ∃ it, items.get? j = some it ∧ it.selection.isSome) →
      (findEndGo items e).isSome := by
  intro e
  induction e with
  | zero => rintro ⟨j, hj, -⟩; exact absurd hj (Nat.not_lt_zero j)
  | succ e ih =>
    rintro ⟨j, hj, it, hg, hs⟩
    simp only [findEndGo]
    rcases Nat.lt_succ_iff_lt_or_eq.mp hj with hlt | heq
    · cases hg2 : items.get? e with
      | none => exact ih ⟨j, hlt, it, hg, hs⟩
      | some it2 =>
        by_cases hs2 : it2.selection.isSome
        · simp [hs2]
        · simp only [if_neg hs2]; exact ih ⟨j, hlt, it, hg, hs⟩
    · subst heq; rw [hg]; simp [hs]

/-- Helper: every remaining branch popLoop can produce carries eventCount
ec - 1 (src/history.js line 78). -/
theorem popLoop_remaining_ec (ops : HOps P S J L D) (A : List (Item P S J)) (e ec : Nat) :
    ∀ (l : List (Nat × Item P S J)) romap mf (tr : TrState P S D) aa ab br,
      (popLoop ops A e ec l romap mf tr aa ab).remaining = some br →
      br.eventCount = ec - 1 := by
  intro l
  induction l with
  | nil => intro romap mf tr aa ab br h; simp [popLoop] at h
  | cons p rest ih =>
    rintro romap mf tr aa ab br h
    obtain ⟨i, item⟩ := p
    cases hst : item.step with
    | none =>
      cases romap with
      | none => simp only [popLoop, hst] at h; exact ih _ _ _ _ _ _ h
      | some r => simp only [popLoop, hst] at h; exact ih _ _ _ _ _ _ h
    | some st =>
      cases romap with
      | some r =>
        cases hsel : item.selection with
        | some sel =>
          simp only [popLoop, hst, hsel] at h
          cases h; rfl
        | none =>
          simp only [popLoop, hst, hsel] at h
          exact ih _ _ _ _ _ _ h
      | none =>
        cases hsel : item.selection with
        | some sel =>
          simp only [popLoop, hst, hsel] at h
          cases h; rfl
        | none =>
          simp only [popLoop, hst, hsel] at h
          exact ih _ _ _ _ _ _ h

/-- Helper: the walk breaks (producing a remaining branch) as soon as the
window contains a step item carrying a selection. -/
theorem popLoop_finds (ops : HOps P S J L D) (A : List (Item P S J)) (e ec : Nat) :
    ∀ (l : List (Nat × Item P S J)) romap mf (tr : TrState P S D) aa ab,
      (∃ p ∈ l, p.2.step.isSome ∧ p.2.selection.isSome) →
      (popLoop ops A e ec l romap mf tr aa ab).remaining.isSome := by
  intro l
  induction l with
  | nil => rintro romap mf tr aa ab ⟨p, hp, -⟩; exact absurd hp (List.not_mem_nil p)
  | cons q rest ih =>
    rintro romap mf tr aa ab ⟨p, hp, hps, hpsel⟩
    obtain ⟨i, item⟩ := q
    rcases List.mem_cons.mp hp with heq | hmem
    · subst heq
      have hps1 : item.step.isSome = true := hps
      have hpsel1 : item.selection.isSome = true := hpsel
      obtain ⟨st, hst⟩ := Option.isSome_iff_exists.mp hps1
      obtain ⟨sel, hsel⟩ := Option.isSome_iff_exists.mp hpsel1
      cases romap with
      | some r => simp [popLoop, hst, hsel]
      | none => simp [popLoop, hst, hsel]
    · cases hst : item.step with
      | none =>
        cases romap with
        | none => simp only [popLoop, hst]; exact ih _ _ _ _ _ ⟨p, hmem, hps, hpsel⟩
        | some r => simp only [popLoop, hst]; exact ih _ _ _ _ _ ⟨p, hmem, hps, hpsel⟩
      | some st =>
        cases romap with
        | some r =>
          cases hsel : item.selection with
          | some sel => simp [popLoop, hst, hsel]
          | none => simp only [popLoop, hst, hsel]; exact ih _ _ _ _ _ ⟨p, hmem, hps, hpsel⟩
        | none =>
          cases hsel : item.selection with
          | some sel => simp [popLoop, hst, hsel]
          | none => simp only [popLoop, hst, hsel]; exact ih _ _ _ _ _ ⟨p, hmem, hps, hpsel⟩

/-- Helper: get? produces members of enum. -/
theorem get?_some_mem_enum {α : Type} (l : List α) :
    ∀ (e : Nat) (a : α), l.get? e = some a → (e, a) ∈ l.enum := by
  intro e a h
  rw [List.mem_enum_iff_getElem?]
  simpa [← List.get?_eq_getElem?] using h

/-- C3: popEvent returns null exactly when eventCount is 0, and every
returned result carries a remaining branch whose eventCount is one less
than the original. The hypothesis is the documented item data model
(spec section 3): a selection marker only sits on a step item — every
constructor in the source satisfies it. -/
theorem popEvent_null_iff_and_decrement (ops : HOps P S J L D) (b : Branch P S J)
    (d0 : D) (pi : Bool)
    (hwf : ∀ it ∈ b.items, it.selection.isSome → it.step.isSome) :
    (b.popEvent ops d0 pi = .ok none ↔ b.eventCount = 0) ∧
    (∀ r, b.popEvent ops d0 pi = .ok (some r) →
      ∃ rem, r.remaining = some rem ∧ rem.eventCount + 1 = b.eventCount) := by
  constructor
  · constructor
    · intro h
      by_contra h0
      rw [Branch.popEvent, if_neg h0] at h
      cases hfe : findEnd b.items with
      | none => rw [hfe] at h; exact absurd h (by simp)
      | some e => rw [hfe] at h; simp at h
    · intro h; simp [Branch.popEvent, h]
  · intro r h
    by_cases h0 : b.eventCount = 0
    · rw [Branch.popEvent, if_pos h0] at h; exact absurd h (by simp)
    · rw [Branch.popEvent, if_neg h0] at h
      cases hfe : findEnd b.items with
      | none => rw [hfe] at h; exact absurd h (by simp)
      | some e =>
        rw [hfe] at h
        simp only [Except.ok.injEq, Option.some.injEq] at h
        obtain ⟨it, hgete, hsel⟩ := findEndGo_mem_sel b.items b.items.length e hfe
        have hstep : it.step.isSome := hwf it (List.get?_mem hgete) hsel
        have hmemrev : (e, it) ∈ b.items.enum.reverse :=
          List.mem_reverse.mpr (get?_some_mem_enum b.items e it hgete)
        have key : ∀ (romap : Option (Mapping P)) (mf : Nat),
            ∃ rem, (popLoop ops b.items e b.eventCount b.items.enum.reverse romap mf
              ⟨d0, [], [], []⟩ [] []).remaining = some rem ∧
              rem.eventCount + 1 = b.eventCount := by
          intro romap mf
          have hfind := popLoop_finds ops b.items e b.eventCount b.items.enum.reverse
            romap mf ⟨d0, [], [], []⟩ [] [] ⟨(e, it), hmemrev, hstep, hsel⟩
          obtain ⟨rem, hrem⟩ := Option.isSome_iff_exists.mp hfind
          have hec := popLoop_remaining_ec ops b.items e b.eventCount
            b.items.enum.reverse romap mf ⟨d0, [], [], []⟩ [] [] rem hrem
          exact ⟨rem, hrem, by omega⟩
        rw [← h]
        exact key _ _

/-- C3 (witness): a one-event branch popped under opsId yields pr3, whose
remaining branch has eventCount 0. -/
theorem popEvent_null_iff_and_decrement_witness :
    ∃ rem, pr3.remaining = some rem ∧ rem.eventCount + 1 = b3.eventCount :=
  (popEvent_null_iff_and_decrement opsId b3 0 false (by decide)).2 pr3 (by rfl)

/-- C9: under the precondition that a positive eventCount guarantees a
selection-bearing item, the unbounded backward scan of popEvent stops
before running past the start, so popEvent returns normally. -/
theorem popEvent_terminates (ops : HOps P S J L D) (b : Branch P S J) (d0 : D) (pi : Bool)
    (h : 0 < b.eventCount → ∃ it ∈ b.items, it.selection.isSome) :
    ∃ v, b.popEvent ops d0 pi = .ok v := by
  by_cases h0 : b.eventCount = 0
  · exact ⟨none, by simp [Branch.popEvent, h0]⟩
  · obtain ⟨it, hm, hs⟩ := h (Nat.pos_of_ne_zero h0)
    obtain ⟨j, hj⟩ := List.mem_iff_get?.mp hm
    obtain ⟨hlt, -⟩ := List.get?_eq_some.mp hj
    have hfe : (findEnd b.items).isSome :=
      findEndGo_isSome b.items b.items.length ⟨j, hlt, it, hj, hs⟩
    obtain ⟨e, he⟩ := Option.isSome_iff_exists.mp hfe
    cases hres : b.popEvent ops d0 pi with
    | ok v => exact ⟨v, rfl⟩
    | error u =>
      rw [Branch.popEvent, if_neg h0, he] at hres
      simp at hres

/-- C9 (witness): popEvent_terminates on a concrete one-event branch. -/
theorem popEvent_terminates_witness :
    ∃ v, Branch.popEvent opsId b3 0 false = .ok v :=
  popEvent_terminates opsId b3 0 false (by decide)

/-- C4: on the tracked path (no pre-baked historyState, at least one step,
addToHistory not explicitly false) the recorder adds the transform to
done with the serialised prior selection exactly when the time rule fires
or the transform is not adjacent to prevMap, clears undone, stores the
transform's last map as prevMap, and stores the action's time as
prevTime. Adjacency is false when prevMap is null, and true when prevMap
is present but the transform has no first map. -/
theorem recordTransform_tracked (ops : HOps P S J L D) [Inhabited P] [Inhabited S]
    [Inhabited D] (history : HistoryState P S J) (selection : L)
    (action : TrAction P S J D) (options : HistOptions)
    (h1 : action.historyState = none) (h2 : action.transform.steps ≠ [])
    (h3 : action.addToHistory ≠ some false) :
    recordTransform ops history selection action options =
      ⟨history.done.addTransform ops action.transform
         (if jsLtO history.prevTime (action.time.getD 0 - options.newGroupDelay) ||
             !(isAdjacentToLastStep ops action.transform history.prevMap history.done)
          then some (ops.selToJSON selection) else none) options,
       Branch.empty,
       action.transform.mapping.maps.get? (action.transform.steps.length - 1),
       action.time⟩ ∧
    isAdjacentToLastStep ops action.transform none history.done = false ∧
    (∀ pm, history.prevMap = some pm → action.transform.mapping.maps = [] →
      isAdjacentToLastStep ops action.transform history.prevMap history.done = true) := by
  refine ⟨?_, rfl, ?_⟩
  · rw [recordTransform, h1]
    have hlen : ¬action.transform.steps.length = 0 := by
      simpa [List.length_eq_zero] using h2
    rw [if_neg hlen, if_pos h3]
  · intro pm hpm hmaps
    simp [isAdjacentToLastStep, hpm, hmaps]

/-- C4 (witness): recordTransform_tracked evaluated on the initial state
and a concrete tracked action at time 1000. -/
theorem recordTransform_tracked_witness :
    recordTransform opsId historyInit 0 act4 ho1 =
      ⟨(historyInit : HistoryState Nat Nat Nat).done.addTransform opsId act4.transform
         (if jsLtO (historyInit : HistoryState Nat Nat Nat).prevTime
             (act4.time.getD 0 - ho1.newGroupDelay) ||
             !(isAdjacentToLastStep opsId act4.transform
                 (historyInit : HistoryState Nat Nat Nat).prevMap
                 (historyInit : HistoryState Nat Nat Nat).done)
          then some (opsId.selToJSON 0) else none) ho1,
       Branch.empty,
       act4.transform.mapping.maps.get? (act4.transform.steps.length - 1),
       act4.time⟩ :=
  (recordTransform_tracked opsId historyInit 0 act4 ho1 rfl (by decide) (by decide)).1

/-- Helper: second components of enum entries are members. -/
theorem enum_snd_mem {α : Type} (l : List α) (p : Nat × α) (hp : p ∈ l.enum) : p.2 ∈ l := by
  have h := List.enum_map_snd l
  rw [← h]
  exact List.mem_map_of_mem Prod.snd hp

/-- Helper: first components of enum entries are below the length. -/
theorem enum_fst_lt {α : Type} (l : List α) (i : Nat) (a : α)
    (hp : (i, a) ∈ l.enum) : i < l.length := by
  rw [List.mem_enum_iff_getElem?] at hp
  exact (List.getElem?_eq_some.mp hp).1

/-- Helper: mapping a function of the entry over enum is mapping it over
the list. -/
theorem enum_map_comp_snd {α β : Type} (l : List α) (f : α → β) :
    l.enum.map (fun p => f p.2) = l.map f := by
  have h : (fun (p : Nat × α) => f p.2) = f ∘ Prod.snd := rfl
  rw [h, ← List.map_map, List.enum_map_snd]

/-- Helper: counting a predicate of the entry over enum is counting it
over the list. -/
theorem enum_countP_snd {α : Type} (l : List α) (p : α → Bool) :
    l.enum.countP (fun q => p q.2) = l.countP p := by
  conv_rhs => rw [← List.enum_map_snd l]
  rw [List.countP_map]
  rfl

/-- Helper: a step algebra that never merges makes Item.merge constantly
fail. -/
theorem merge_none_of (ops : HOps P S J L D) (H3 : ∀ a b, ops.stepMerge a b = none)
    (a b : Item P S J) : Item.merge ops a b = none := by
  cases ha : a.step <;> cases hb : b.step <;> cases hbs : b.selection <;>
    simp [Item.merge, ha, hb, hbs, H3]

/-- Helper: the backward scan only reads selections, so it agrees on
branches with pointwise equal step/selection projections. -/
theorem findEndGo_proj (items1 items2 : List (Item P S J))
    (hget : ∀ i, (items1.get? i).map projSS = (items2.get? i).map projSS) :
    ∀ e, findEndGo items1 e = findEndGo items2 e := by
  intro e
  induction e with
  | zero => rfl
  | succ e ih =>
    have h := hget e
    cases hg1 : items1.get? e with
    | none =>
      cases hg2 : items2.get? e with
      | none => simp only [findEndGo, hg1, hg2]; exact ih
      | some it2 => rw [hg1, hg2] at h; simp at h
    | some it1 =>
      cases hg2 : items2.get? e with
      | none => rw [hg1, hg2] at h; simp at h
      | some it2 =>
        rw [hg1, hg2] at h
        simp only [Option.map_some', Option.some.injEq] at h
        have hsel : it1.selection = it2.selection := congrArg Prod.snd h
        simp only [findEndGo, hg1, hg2, hsel]
        by_cases hs : it2.selection.isSome
        · rw [if_pos hs, if_pos hs]
        · rw [if_neg hs, if_neg hs]; exact ih

/-- Helper: on windows of step items carrying equal steps and selections,
the popEvent walk never builds a remapping and produces the same
transform and selection, and remaining branches of the same shape. -/
theorem popLoop_congr (ops : HOps P S J L D) (e ec : Nat) :
    ∀ (l1 l2 : List (Nat × Item P S J)) (A1 A2 : List (Item P S J))
      (mf1 mf2 : Nat) (tr : TrState P S D) (aa ab : List (Item P S J)),
      l1.map (fun p => projSS p.2) = l2.map (fun p => projSS p.2) →
      (∀ p ∈ l1, p.2.step.isSome) →
      ((popLoop ops A1 e ec l1 none mf1 tr aa ab).transform =
         (popLoop ops A2 e ec l2 none mf2 tr aa ab).transform ∧
       (popLoop ops A1 e ec l1 none mf1 tr aa ab).selection =
         (popLoop ops A2 e ec l2 none mf2 tr aa ab).selection ∧
       (((popLoop ops A1 e ec l1 none mf1 tr aa ab).remaining = none ∧
         (popLoop ops A2 e ec l2 none mf2 tr aa ab).remaining = none) ∨
        ((popLoop ops A1 e ec l1 none mf1 tr aa ab).remaining =
           some ⟨A1.take e ++ (ab.reverse ++ aa), ec - 1⟩ ∧
         (popLoop ops A2 e ec l2 none mf2 tr aa ab).remaining =
           some ⟨A2.take e ++ (ab.reverse ++ aa), ec - 1⟩))) := by
  intro l1
  induction l1 with
  | nil =>
    intro l2 A1 A2 mf1 mf2 tr aa ab hmap _
    have hl2 : l2 = [] := by
      have := hmap.symm
      simpa [List.map_eq_nil_iff] using this
    subst hl2
    exact ⟨rfl, rfl, Or.inl ⟨rfl, rfl⟩⟩
  | cons p1 rest1 ih =>
    intro l2 A1 A2 mf1 mf2 tr aa ab hmap hstep
    cases l2 with
    | nil => simp at hmap
    | cons p2 rest2 =>
      obtain ⟨i1, it1⟩ := p1
      obtain ⟨i2, it2⟩ := p2
      simp only [List.map_cons, List.cons.injEq] at hmap
      obtain ⟨hhead, htail⟩ := hmap
      have hs1 : it1.step.isSome = true := hstep (i1, it1) (List.mem_cons_self _ _)
      obtain ⟨s, hs⟩ := Option.isSome_iff_exists.mp hs1
      have hpair : it1.step = it2.step ∧ it1.selection = it2.selection := by
        have h1 : projSS it1 = projSS it2 := hhead
        exact ⟨congrArg Prod.fst h1, congrArg Prod.snd h1⟩
      obtain ⟨hst12, hsel12⟩ := hpair
      have hst2 : it2.step = some s := by rw [← hst12]; exact hs
      cases hsel : it1.selection with
      | some sel =>
        have hsel2 : it2.selection = some sel := by rw [← hsel12]; exact hsel
        refine ⟨?_, ?_, Or.inr ⟨?_, ?_⟩⟩ <;> simp [popLoop, hs, hst2, hsel, hsel2]
      | none =>
        have hsel2 : it2.selection = none := by rw [← hsel12]; exact hsel
        simp only [popLoop, hs, hst2, hsel, hsel2]
        exact ih rest2 A1 A2 mf1 mf2 (maybeStep ops tr s).1 aa ab htail
          (fun p hp => hstep p (List.mem_cons_of_mem _ hp))

/-- Helper: over step items below the window bound, a step algebra on
which remapping acts trivially makes the compress walk emit exactly one
image item per input item, in order and without merging, counting one
event per surviving selection. -/
theorem compressLoop_stepOnly (ops : HOps P S J L D)
    (H1 : ∀ s m, ops.stepMap s m = some s)
    (H2 : ∀ j m, ops.mapSelection j m = j)
    (H3 : ∀ a b, ops.stepMerge a b = none) (upto : Nat) :
    ∀ (l : List (Nat × Item P S J)) (remap : Mapping P) (mf : Nat)
      (acc : List (Item P S J)) (events : Nat),
      (∀ p ∈ l, p.2.step.isSome ∧ p.1 < upto) →
      compressLoop ops upto l remap mf acc events =
        (acc ++ l.map (fun p => stepOnlyImage ops p.2),
         events + l.countP (fun p => p.2.selection.isSome)) := by
  intro l
  induction l with
  | nil => intro remap mf acc events _; simp [compressLoop]
  | cons p rest ih =>
    intro remap mf acc events hl
    obtain ⟨i, item⟩ := p
    obtain ⟨hstep0, hlt⟩ := hl (i, item) (List.mem_cons_self _ _)
    have hstep : item.step.isSome = true := hstep0
    obtain ⟨s, hs⟩ := Option.isSome_iff_exists.mp hstep
    have hnle : ¬ upto ≤ i := Nat.not_le.mpr hlt
    have hselmap : ∀ (m : Mapping P),
        item.selection.map (fun x => ops.mapSelection x m) = item.selection := by
      intro m; cases item.selection <;> simp [H2]
    have hacc1 : ∀ (lastIt : Option (Item P S J)) (newIt : Item P S J),
        (match lastIt with
         | some li =>
           (match Item.merge ops li newIt with
            | some merged => acc.dropLast ++ [merged]
            | none => acc ++ [newIt])
         | none => acc ++ [newIt]) = acc ++ [newIt] := by
      intro lastIt newIt
      cases lastIt with
      | none => rfl
      | some li => simp [merge_none_of ops H3]
    rw [show compressLoop ops upto ((i, item) :: rest) remap mf acc events =
        compressLoop ops upto rest
          (remap.appendMap (ops.getMap s) (some (mf - 1))) (mf - 1)
          (acc ++ [⟨ops.invertMap (ops.getMap s), some s,
            item.selection.map (fun x => ops.mapSelection x
              ((remap.appendMap (ops.getMap s) (some (mf - 1))).slice1 (mf - 1))),
            none⟩])
          (events + (if (item.selection.map (fun x => ops.mapSelection x
              ((remap.appendMap (ops.getMap s) (some (mf - 1))).slice1 (mf - 1)))).isSome
            then 1 else 0)) from ?_]
    · rw [ih _ _ _ _ (fun q hq => hl q (List.mem_cons_of_mem _ hq)), hselmap]
      simp only [Prod.mk.injEq]
      constructor
      · rw [List.append_assoc]
        simp only [List.map_cons, List.singleton_append, stepOnlyImage, hs]
      · simp only [List.countP_cons]
        have hp : ((i, item).2.selection.isSome) = item.selection.isSome := rfl
        rw [hp]
        cases item.selection with
        | none => simp
        | some v => simp; omega
    · simp only [compressLoop, if_neg hnle, hs, H1]
      rw [hacc1]

/-- Helper: on a branch of step items, under a trivially-acting step
algebra, compress keeps every item (with its map replaced) and rebuilds
the event counter as the number of selection-bearing items. -/
theorem compress_stepOnly (ops : HOps P S J L D)
    (H1 : ∀ s m, ops.stepMap s m = some s)
    (H2 : ∀ j m, ops.mapSelection j m = j)
    (H3 : ∀ a b, ops.stepMerge a b = none)
    (b : Branch P S J) (hsteps : ∀ it ∈ b.items, it.step.isSome) :
    b.compress ops b.items.length =
      ⟨b.items.map (stepOnlyImage ops), b.items.countP (fun it => it.selection.isSome)⟩ := by
  have hl : ∀ p ∈ b.items.enum.reverse, p.2.step.isSome = true ∧ p.1 < b.items.length := by
    intro p hp
    have hp1 : p ∈ b.items.enum := List.mem_reverse.mp hp
    obtain ⟨i, a⟩ := p
    exact ⟨hsteps a (enum_snd_mem b.items (i, a) hp1), enum_fst_lt b.items i a hp1⟩
  rw [Branch.compress, compressLoop_stepOnly ops H1 H2 H3 b.items.length
    b.items.enum.reverse _ _ _ _ hl]
  simp only [List.nil_append, Nat.zero_add]
  have h1 : ((b.items.enum.reverse.map (fun p => stepOnlyImage ops p.2)).reverse) =
      b.items.map (stepOnlyImage ops) := by
    rw [← List.map_reverse, List.reverse_reverse, enum_map_comp_snd]
  have h2 : b.items.enum.reverse.countP (fun p => p.2.selection.isSome) =
      b.items.countP (fun it => it.selection.isSome) := by
    rw [List.countP_reverse]
    exact enum_countP_snd b.items (fun it => it.selection.isSome)
  rw [h1, h2]

/-- Helper: popEvent cannot distinguish BranchRel-related branches: both
return null, or both fail, or both produce results with the same
transform and selection and BranchRel-related remaining branches. -/
theorem popEvent_rel (ops : HOps P S J L D) (d0 : D) (b1 b2 : Branch P S J)
    (h : BranchRel b1 b2) :
    (b1.popEvent ops d0 false = .ok none ∧ b2.popEvent ops d0 false = .ok none) ∨
    (b1.popEvent ops d0 false = .error () ∧ b2.popEvent ops d0 false = .error ()) ∨
    (∃ r1 r2, b1.popEvent ops d0 false = .ok (some r1) ∧
      b2.popEvent ops d0 false = .ok (some r2) ∧
      r1.transform = r2.transform ∧ r1.selection = r2.selection ∧
      ((r1.remaining = none ∧ r2.remaining = none) ∨
       (∃ rem1 rem2, r1.remaining = some rem1 ∧ r2.remaining = some rem2 ∧
         BranchRel rem1 rem2))) := by
  obtain ⟨items1, ec1⟩ := b1
  obtain ⟨items2, ec2⟩ := b2
  obtain ⟨hec, hproj, hstep⟩ := h
  have hec1 : ec1 = ec2 := hec
  subst hec1
  have hproj1 : items1.map projSS = items2.map projSS := hproj
  have hstep1 : ∀ it ∈ items1, it.step.isSome := hstep
  have hlen : items1.length = items2.length := by
    have := congrArg List.length hproj1
    simpa using this
  have hget : ∀ i, (items1.get? i).map projSS = (items2.get? i).map projSS := by
    intro i
    rw [List.get?_eq_getElem?, List.get?_eq_getElem?, ← List.getElem?_map,
      ← List.getElem?_map, hproj1]
  by_cases h0 : ec1 = 0
  · left
    exact ⟨by simp [Branch.popEvent, h0], by simp [Branch.popEvent, h0]⟩
  · have hfe_eq : findEnd items1 = findEnd items2 := by
      rw [findEnd, findEnd, hlen]
      exact findEndGo_proj items1 items2 hget items2.length
    cases hfe1 : findEnd items1 with
    | none =>
      right; left
      have hfe2 : findEnd items2 = none := by rw [← hfe_eq]; exact hfe1
      exact ⟨by rw [Branch.popEvent, if_neg h0, hfe1],
             by rw [Branch.popEvent, if_neg h0, hfe2]⟩
    | some e =>
      right; right
      have hfe2 : findEnd items2 = some e := by rw [← hfe_eq]; exact hfe1
      have e1 : Branch.popEvent ops ⟨items1, ec1⟩ d0 false =
          .ok (some (popLoop ops items1 e ec1 items1.enum.reverse none 0
            ⟨d0, [], [], []⟩ [] [])) := by
        rw [Branch.popEvent, if_neg h0, hfe1]
        exact rfl
      have e2 : Branch.popEvent ops ⟨items2, ec1⟩ d0 false =
          .ok (some (popLoop ops items2 e ec1 items2.enum.reverse none 0
            ⟨d0, [], [], []⟩ [] [])) := by
        rw [Branch.popEvent, if_neg h0, hfe2]
        exact rfl
      have hmaprev : items1.enum.reverse.map (fun p => projSS p.2) =
          items2.enum.reverse.map (fun p => projSS p.2) := by
        rw [List.map_reverse, List.map_reverse, enum_map_comp_snd, enum_map_comp_snd,
          hproj1]
      have hsteprev : ∀ p ∈ items1.enum.reverse, p.2.step.isSome := by
        intro p hp
        exact hstep1 p.2 (enum_snd_mem items1 p (List.mem_reverse.mp hp))
      have hc := popLoop_congr ops e ec1 items1.enum.reverse items2.enum.reverse
        items1 items2 0 0 ⟨d0, [], [], []⟩ [] [] hmaprev hsteprev
      obtain ⟨htr, hsel, hrem⟩ := hc
      refine ⟨_, _, e1, e2, htr, hsel, ?_⟩
      rcases hrem with ⟨hn1, hn2⟩ | ⟨hs1, hs2⟩
      · exact Or.inl ⟨hn1, hn2⟩
      · refine Or.inr ⟨_, _, hs1, hs2, rfl, ?_, ?_⟩
        · show (items1.take e ++ (List.reverse [] ++ [])).map projSS =
            (items2.take e ++ (List.reverse [] ++ [])).map projSS
          simp only [List.reverse_nil, List.nil_append, List.append_nil]
          rw [List.map_take, List.map_take, hproj1]
        · intro it hit
          apply hstep1
          have hmem : it ∈ items1.take e := by
            simpa using hit
          exact List.take_subset e items1 hmem

/-- Helper: BranchRel-related branches produce identical pop traces. -/
theorem popTrace_rel (ops : HOps P S J L D) :
    ∀ (n : Nat) (d0 : D) (b1 b2 : Branch P S J), BranchRel b1 b2 →
      popTrace ops false n d0 b1 = popTrace ops false n d0 b2 := by
  intro n
  induction n with
  | zero => intro d0 b1 b2 _; rfl
  | succ n ih =>
    intro d0 b1 b2 h
    rcases popEvent_rel ops d0 b1 b2 h with ⟨h1, h2⟩ | ⟨h1, h2⟩ |
      ⟨r1, r2, h1, h2, htr, hsel, hrem⟩
    · simp [popTrace, h1, h2]
    · simp [popTrace, h1, h2]
    · rcases hrem with ⟨hn1, hn2⟩ | ⟨rem1, rem2, hs1, hs2, hrel⟩
      · simp [popTrace, h1, h2, hn1, hn2, htr, hsel]
      · simp only [popTrace, h1, h2, hs1, hs2, htr, hsel]
        rw [ih r2.transform.doc rem1 rem2 hrel]

/-- C5 (counterexample): compressing a two-event branch under a step
algebra where the older step no longer maps (allowed by the collaborator
contract, and the documented behaviour for unsynced overlapping deletes)
drops that event entirely, so the pop trace of the compressed branch is
strictly shorter than the pop trace of the original branch. -/
theorem compress_trace_counterexample :
    popTrace ops0 false 2 0 (Branch.compress ops0 cB cB.items.length) ≠
      popTrace ops0 false 2 0 cB := by
  decide

/-- C5 (amended): compress preserves the popEvent trace for the events it
retains; an event whose step fails to remap is dropped. Formalised on
branches of step items (no map-only items, so popEvent builds no
remapping) whose eventCount matches their selection count, under a step
algebra on which the compression remapping acts trivially (every held
step survives unchanged, selection markers map to themselves, merging
declines): there the traces coincide for every fuel and starting
document. -/
theorem compress_trace_preserved (ops : HOps P S J L D)
    (H1 : ∀ s m, ops.stepMap s m = some s)
    (H2 : ∀ j m, ops.mapSelection j m = j)
    (H3 : ∀ a b, ops.stepMerge a b = none)
    (b : Branch P S J) (hsteps : ∀ it ∈ b.items, it.step.isSome)
    (hcount : b.eventCount = b.items.countP (fun it => it.selection.isSome))
    (n : Nat) (d0 : D) :
    popTrace ops false n d0 (b.compress ops b.items.length) =
      popTrace ops false n d0 b := by
  apply popTrace_rel
  rw [compress_stepOnly ops H1 H2 H3 b hsteps]
  refine ⟨hcount.symm, ?_, ?_⟩
  · show (b.items.map (stepOnlyImage ops)).map projSS = b.items.map projSS
    rw [List.map_map]
    apply List.map_congr_left
    intro it hit
    obtain ⟨s, hs⟩ := Option.isSome_iff_exists.mp (hsteps it hit)
    simp [Function.comp, stepOnlyImage, projSS, hs]
  · intro it hit
    obtain ⟨it0, hm0, heq⟩ := List.mem_map.mp hit
    obtain ⟨s, hs⟩ := Option.isSome_iff_exists.mp (hsteps it0 hm0)
    rw [← heq]
    simp [stepOnlyImage, hs]

/-- C5 (witness): compress_trace_preserved on the concrete two-event
step-only branch under the trivial algebra. -/
theorem compress_trace_preserved_witness :
    popTrace opsId false 3 0 (Branch.compress opsId cB cB.items.length) =
      popTrace opsId false 3 0 cB :=
  compress_trace_preserved opsId (fun _ _ => rfl) (fun _ _ => rfl) (fun _ _ => rfl)
    cB (by decide) (by decide) 3 0

end HistSpec
